import Mathlib

/-!
Verification of the keyword expansion and staging engine of
`src/apps/keyword/total_gold.py`.

The Python source is shallowly embedded: dictionaries become association
lists or functions, Python `set`s become duplicate-free lists maintained by
guarded insertion, the `while` loop of `expand_keywords_recursive` becomes a
fuel-indexed recursive function (with a theorem showing the given fuel is
always enough, so the fuel-indexed run is the loop's semantics), and Python
float arithmetic in the competitiveness ratio is modelled by exact rational
arithmetic with explicit decimal rounding.
-/

/-! ### Volume parsing (`parse_volume`, total_gold.py lines 532-542 / 599-609) -/

/-- A Python value as it can appear in the volume fields handed to
`parse_volume`: an `int`, a `str`, or a value of any other type. -/
inductive PyVal where
  | int (n : Int)
  | str (s : String)
  | other
deriving DecidableEq

/-- Digits-only string body to a number, as accepted by Python `int()`. -/
def digitsToNat : List Char → Option Nat
  | [] => none
  | cs =>
    if cs.all Char.isDigit then
      some (cs.foldl (fun a c => a * 10 + (c.toNat - 48)) 0)
    else none

/-- Leading/trailing-whitespace removal (Python `int()` ignores surrounding
whitespace). -/
def trimChars (cs : List Char) : List Char :=
  ((cs.dropWhile Char.isWhitespace).reverse.dropWhile Char.isWhitespace).reverse

/-- Model of Python's built-in `int(str)` conversion: surrounding whitespace
is ignored, an optional sign precedes a non-empty run of digits; anything
else raises (modelled as `none`). -/
def pyToInt (s : String) : Option Int :=
  match trimChars s.toList with
  | '+' :: cs => (digitsToNat cs).map Int.ofNat
  | '-' :: cs => (digitsToNat cs).map (fun n => -(n : Int))
  | cs => (digitsToNat cs).map Int.ofNat

/-- Python's `s.startswith(c)` for a single-character pattern: the first
character of `s` is `c`. -/
def strHeadIs (c : Char) (s : String) : Bool :=
  match s.toList with
  | [] => false
  | c2 :: _ => c2 == c

/-- `parse_volume` (total_gold.py lines 532-542, identical copy at 599-609):
an `int` is returned unchanged; a string starting with `'<'` becomes the
floor value `5`; any other string is fed to `int()`, with conversion failure
caught and turned into `0`; any other type yields `0`. -/
def parse_volume : PyVal → Int
  | .int n => n
  | .str s =>
    if strHeadIs '<' s then 5
    else
      match pyToInt s with
      | some n => n
      | none => 0
  | .other => 0

/-! ### Competitiveness ratio (total_gold.py lines 544-559 and 611-631) -/

/-- Round a rational to the nearest integer, ties to even — the rounding
mode of Python's built-in `round`. -/
def roundHalfEven (q : ℚ) : ℤ :=
  let f := ⌊q⌋
  let r := q - f
  if r < 1 / 2 then f
  else if 1 / 2 < r then f + 1
  else if Even f then f else f + 1

/-- `round(x, 3)` of Python, modelled over exact rationals. -/
def round3 (q : ℚ) : ℚ := (roundHalfEven (q * 1000) : ℚ) / 1000

/-- One per-keyword metrics dictionary as built by
`get_keyword_analysis` / `get_keyword_analysis_with_save`; the `'stage'`
key is absent (`none`) until a filter adds it. -/
structure MetricsDict where
  pc_search_volume : Int
  mobile_search_volume : Int
  total_search_volume : Int
  blog_count : Int
  competition_ratio : ℚ
  stage : Option Nat
deriving DecidableEq

instance : Inhabited MetricsDict :=
  ⟨{ pc_search_volume := 0, mobile_search_volume := 0, total_search_volume := 0,
     blog_count := 0, competition_ratio := 0, stage := none }⟩

/-- Per-keyword body of `get_keyword_analysis_with_save`
(total_gold.py lines 611-631): if the cleaned keyword is present in the
volume lookup (`volData = some (pc, mobile)`) the two volumes are parsed,
otherwise both are `0`; the total is their sum, and the competitiveness
ratio is `round(blog_count / total, 3)` when the total is positive, else
`0`. -/
def analyzeEntry (volData : Option (PyVal × PyVal)) (blog_count : Int) : MetricsDict :=
  let pc := match volData with | some (p, _) => parse_volume p | none => 0
  let mobile := match volData with | some (_, m) => parse_volume m | none => 0
  let total : Int := pc + mobile
  let ratio : ℚ :=
    if 0 < total then round3 ((blog_count : ℚ) / (total : ℚ)) else 0
  { pc_search_volume := pc, mobile_search_volume := mobile,
    total_search_volume := total, blog_count := blog_count,
    competition_ratio := ratio, stage := none }

/-- Per-keyword body of the strict variant `get_keyword_analysis`
(total_gold.py lines 544-559): a keyword absent from the volume lookup is
excluded from the result (`none`); otherwise the entry is computed exactly
as in the permissive variant. -/
def analyzeEntryStrict (volData : Option (PyVal × PyVal)) (blog_count : Int) :
    Option MetricsDict :=
  volData.map (fun vd => analyzeEntry (some vd) blog_count)

/-- The ratio formula in the words of the specification, amended with the
rounding the source performs: `document_count / total_search_volume` rounded
to 3 decimal places when the volume is positive, else `0`. -/
def ratioSpec (doc_count total : Int) : ℚ :=
  if 0 < total then round3 ((doc_count : ℚ) / (total : ℚ)) else 0

/-! ### Stage classifier (`get_keyword_stage`, total_gold.py lines 471-498) -/

/-- One entry of the `blog_stages` configuration table: each of `D_max`,
`S_min`, `S_max` may be absent from the YAML dictionary (`none`); the source
substitutes `float('inf')`, `0`, `float('inf')` respectively. -/
structure StageRule where
  dMax : Option Int
  sMin : Option Int
  sMax : Option Int
deriving DecidableEq

/-- `x <= bound` where an absent bound means `float('inf')`. -/
def leOptInf (x : Int) : Option Int → Bool
  | none => true
  | some v => decide (x ≤ v)

/-- `stage_key in blog_stages` followed by the dictionary access; the
stringified-integer keys `"1"`..`"5"` of the source are modelled by their
numeric values. -/
def lookupStage (stages : List (Nat × StageRule)) (n : Nat) : Option StageRule :=
  (stages.find? (fun p => p.1 == n)).map Prod.snd

/-- The `for stage_num in range(1, 6)` loop of `get_keyword_stage`, scanning
the remaining stage numbers `ns`: a missing entry is skipped; on the base
condition `doc_count <= D_max and S_min <= total_search <= S_max`, stage 1
is returned at once, stages 2..5 additionally require
`total_search >= doc_count` and otherwise fall through to later stages. -/
def stageScan (stages : List (Nat × StageRule)) (doc_count total_search : Int) :
    List Nat → Nat
  | [] => 0
  | n :: ns =>
    match lookupStage stages n with
    | none => stageScan stages doc_count total_search ns
    | some sc =>
      if leOptInf doc_count sc.dMax && decide (sc.sMin.getD 0 ≤ total_search)
          && leOptInf total_search sc.sMax then
        if n = 1 then n
        else if doc_count ≤ total_search then n
        else stageScan stages doc_count total_search ns
      else stageScan stages doc_count total_search ns

/-- `get_keyword_stage` (total_gold.py lines 471-498). The configuration is
`none` when `blog_stages` is missing or the config is empty, in which case
the classifier returns `0`. -/
def get_keyword_stage (cfg : Option (List (Nat × StageRule)))
    (doc_count total_search : Int) : Nat :=
  match cfg with
  | none => 0
  | some stages => stageScan stages doc_count total_search [1, 2, 3, 4, 5]

/-- The tier-matching condition in the words of the claim: the base bounds
hold, and for tiers other than 1 additionally `total_search >= doc_count`. -/
def tierMatchesSpec (r : StageRule) (d s : Int) (n : Nat) : Bool :=
  (leOptInf d r.dMax && decide (r.sMin.getD 0 ≤ s) && leOptInf s r.sMax)
    && (n == 1 || decide (d ≤ s))

/-- The classifier in the words of the claim: the first tier in 1..5 whose
condition holds, else 0. -/
def classifySpec (rules : Nat → StageRule) (d s : Int) : Nat :=
  (List.find? (fun n => tierMatchesSpec (rules n) d s n) [1, 2, 3, 4, 5]).getD 0

/-! ### Keyword expansion (`expand_keywords_recursive`, total_gold.py lines 146-210) -/

/-- `max_empty_tolerance` (total_gold.py line 164). -/
def max_empty_tolerance : Nat := 50

/-- The loop state of `expand_keywords_recursive`: the `processed_keywords`
set, the `all_keywords` pool, the BFS queue of (keyword, originating seed)
pairs, and the consecutive-empty-results counter. Python sets are modelled
by duplicate-free lists (every insertion below is membership-guarded). The
`calls` field is a ghost log of the keywords passed to the autocomplete
oracle, recorded at exactly the point the source performs the call. -/
structure ExpState where
  processed : List String
  pool : List String
  queue : List (String × String)
  consecEmpty : Nat
  calls : List String
deriving DecidableEq

/-- `all_keywords = set(seed_keywords)`: the seeds, deduplicated. -/
def poolInit (seeds : List String) : List String :=
  seeds.foldl (fun acc k => if k ∈ acc then acc else acc ++ [k]) []

/-- The state just before the `while` loop: empty visited set, pool holding
the seeds, one queue entry `(seed, seed)` per seed, counter at zero. -/
def initState (seeds : List String) : ExpState :=
  { processed := [], pool := poolInit seeds,
    queue := seeds.map (fun s => (s, s)), consecEmpty := 0, calls := [] }

/-- The `for kw in related_keywords` body (total_gold.py lines 184-191): a
keyword not yet in the pool is added, and additionally enqueued when the
pool is still below `max_keywords` after the addition. -/
def addRelated (maxKw : Nat) (origin : String) : List String → ExpState → ExpState
  | [], s => s
  | kw :: kws, s =>
    if kw ∈ s.pool then addRelated maxKw origin kws s
    else
      let pool2 := s.pool ++ [kw]
      let s2 :=
        if pool2.length < maxKw then
          { s with pool := pool2, queue := s.queue ++ [(kw, origin)] }
        else { s with pool := pool2 }
      addRelated maxKw origin kws s2

/-- The `while queue and len(all_keywords) < max_keywords` loop
(total_gold.py lines 166-208), fuel-indexed. A dequeued keyword already in
`processed_keywords` is skipped; otherwise it is marked processed, the
oracle is called (logged in `calls`), an empty result increments the
consecutive-empty counter and breaks the loop at the tolerance threshold,
and a non-empty result resets the counter and runs `addRelated`. -/
def expandLoop (oracle : String → List String) (maxKw : Nat) :
    Nat → ExpState → ExpState
  | 0, s => s
  | fuel + 1, s =>
    match s.queue with
    | [] => s
    | (current, origin) :: rest =>
      if maxKw ≤ s.pool.length then s
      else if current ∈ s.processed then
        expandLoop oracle maxKw fuel { s with queue := rest }
      else
        let s1 := { s with
          queue := rest
          processed := current :: s.processed
          calls := current :: s.calls }
        match oracle current with
        | [] =>
          if max_empty_tolerance ≤ s1.consecEmpty + 1 then
            { s1 with consecEmpty := s1.consecEmpty + 1 }
          else
            expandLoop oracle maxKw fuel { s1 with consecEmpty := s1.consecEmpty + 1 }
        | kw :: kws =>
          expandLoop oracle maxKw fuel
            (addRelated maxKw origin (kw :: kws) { s1 with consecEmpty := 0 })

/-- Fuel that (provably, below) always suffices for the loop to reach one
of its exit conditions. -/
def initFuel (seeds : List String) (maxKw : Nat) : Nat := seeds.length + maxKw

/-- The final loop state of one expansion run. -/
def expandRun (oracle : String → List String) (maxKw : Nat)
    (seeds : List String) : ExpState :=
  expandLoop oracle maxKw (initFuel seeds maxKw) (initState seeds)

/-- `expand_keywords_recursive` (total_gold.py lines 146-210): the returned
keyword pool. The autocomplete HTTP call `get_naver_autocomplete` is
abstracted as the `oracle` parameter. -/
def expand_keywords_recursive (oracle : String → List String)
    (seeds : List String) (maxKw : Nat) : List String :=
  (expandRun oracle maxKw seeds).pool

/-- The disjunction of the loop's exit conditions: queue exhausted, pool at
or above `max_keywords`, or the consecutive-empty circuit breaker tripped. -/
def Finished (maxKw : Nat) (s : ExpState) : Prop :=
  s.queue = [] ∨ maxKw ≤ s.pool.length ∨ max_empty_tolerance ≤ s.consecEmpty

instance (maxKw : Nat) (s : ExpState) : Decidable (Finished maxKw s) := by
  unfold Finished; infer_instance

/-- Termination measure for the loop. -/
def expMeasure (maxKw : Nat) (s : ExpState) : Nat :=
  s.queue.length + (maxKw - s.pool.length)

/-! ### Result-table merge (`save_to_excel`, total_gold.py lines 769-831) -/

/-- `MODE` (total_gold.py line 74). -/
def MODE : String := "BASIC"

/-- One row of the persisted Excel table. -/
structure Row where
  keyword : String
  pc_search_volume : Int
  mobile_search_volume : Int
  total_search_volume : Int
  blog_count : Int
  competition_ratio : ℚ
  stage : Nat
deriving DecidableEq

/-- Building one row of `new_data` (total_gold.py lines 793-802):
`stats.get('stage', 0)` turns an absent stage into `0`. -/
def toRow (kw : String) (st : MetricsDict) : Row :=
  { keyword := kw, pc_search_volume := st.pc_search_volume,
    mobile_search_volume := st.mobile_search_volume,
    total_search_volume := st.total_search_volume,
    blog_count := st.blog_count, competition_ratio := st.competition_ratio,
    stage := st.stage.getD 0 }

/-- `drop_duplicates(subset=['키워드'], keep='last')`: a row survives iff no
later row carries the same keyword; surviving rows keep their order. -/
def dropDupKeepLast : List Row → List Row
  | [] => []
  | r :: rs =>
    if r.keyword ∈ rs.map Row.keyword then dropDupKeepLast rs
    else r :: dropDupKeepLast rs

/-- Ordering of `sort_values('경쟁도', ascending=True)`. -/
def ratioLE (a b : Row) : Prop := a.competition_ratio ≤ b.competition_ratio

instance : DecidableRel ratioLE := fun a b =>
  inferInstanceAs (Decidable (a.competition_ratio ≤ b.competition_ratio))

instance : IsTotal Row ratioLE := ⟨fun a b => le_total a.competition_ratio b.competition_ratio⟩

instance : IsTrans Row ratioLE := ⟨fun _ _ _ h h2 => le_trans h h2⟩

/-- The in-memory table produced by `save_to_excel` (total_gold.py lines
769-831) before it is written out: the incoming mapping becomes `new_df`;
with an existing table, `MODE == "AUTO"` first purges stage-0 rows, the two
tables are concatenated, deduplicated by keyword keeping the last
occurrence, and the union is sorted by competitiveness ratio ascending. -/
def save_to_excel_table (existing : Option (List Row))
    (incoming : List (String × MetricsDict)) : List Row :=
  let newRows := incoming.map (fun p => toRow p.1 p.2)
  match existing with
  | some ex =>
    let ex2 := if MODE = "AUTO" then ex.filter (fun r => 0 < r.stage) else ex
    List.insertionSort ratioLE (dropDupKeepLast (ex2 ++ newRows))
  | none => List.insertionSort ratioLE newRows

/-! ### Target-stage filters (total_gold.py lines 722-767)

The Python dictionaries `analysis_result[keyword]` are heap objects shared
by reference; the heap is modelled explicitly as a function from addresses
to `MetricsDict`, and the keyword mapping holds addresses. Writing the
`'stage'` key mutates the shared object in place. -/

/-- The shared loop body of `filter_keywords_by_target_stages` (lines
758-765) and `filter_keywords_auto_mode` (lines 733-743): classify the
entry's metrics, and when the stage is in `target_stages`, append the entry
(the same address — no copy is made) to the result and set its `'stage'`
key in the heap. -/
def filterStep (stages : List (Nat × StageRule)) (targetStages : List Nat)
    (acc : List (String × Nat) × (Nat → MetricsDict)) (entry : String × Nat) :
    List (String × Nat) × (Nat → MetricsDict) :=
  let data := acc.2 entry.2
  let stage := get_keyword_stage (some stages) data.blog_count data.total_search_volume
  if stage ∈ targetStages then
    (acc.1 ++ [entry],
     Function.update acc.2 entry.2 { data with stage := some stage })
  else acc

/-- `filter_keywords_by_target_stages` (total_gold.py lines 747-767):
with a missing stage configuration it returns an empty mapping; otherwise
it folds `filterStep` over the input mapping. Returns the filtered mapping
and the heap after the in-place `'stage'` writes. -/
def filter_keywords_by_target_stages (cfg : Option (List (Nat × StageRule)))
    (targetStages : List Nat) (input : List (String × Nat))
    (store : Nat → MetricsDict) :
    List (String × Nat) × (Nat → MetricsDict) :=
  match cfg with
  | none => ([], store)
  | some stages => input.foldl (filterStep stages targetStages) ([], store)

/-- `filter_keywords_auto_mode` (total_gold.py lines 722-745): identical
loop body; the sole difference is that a missing stage configuration
returns the input mapping unchanged. -/
def filter_keywords_auto_mode (cfg : Option (List (Nat × StageRule)))
    (targetStages : List Nat) (input : List (String × Nat))
    (store : Nat → MetricsDict) :
    List (String × Nat) × (Nat → MetricsDict) :=
  match cfg with
  | none => (input, store)
  | some stages => input.foldl (filterStep stages targetStages) ([], store)

/-! ## Theorems -/

/-! ### C10: totality of `parse_volume` -/

/-- C10: `parse_volume` is total over all inputs: an integer is returned
unchanged, a string starting with `'<'` yields 5, any other string that
parses as an integer yields that integer, any string that fails to parse
yields 0, and any value of another type yields 0 — malformed volume data
silently becomes 0 instead of aborting the analysis. -/
theorem parse_volume_total_cases :
    (∀ n : Int, parse_volume (.int n) = n)
    ∧ (∀ s : String, strHeadIs '<' s = true → parse_volume (.str s) = 5)
    ∧ (∀ (s : String) (n : Int), strHeadIs '<' s = false → pyToInt s = some n →
        parse_volume (.str s) = n)
    ∧ (∀ s : String, strHeadIs '<' s = false → pyToInt s = none →
        parse_volume (.str s) = 0)
    ∧ parse_volume .other = 0 := by
  refine ⟨fun n => rfl, ?_, ?_, ?_, rfl⟩
  · intro s h
    simp [parse_volume, h]
  · intro s n h h2
    simp [parse_volume, h, h2]
  · intro s h h2
    simp [parse_volume, h, h2]

/-- Witness for C10 at concrete inputs of each kind. -/
theorem parse_volume_total_cases_witness :
    parse_volume (.int 7) = 7 ∧ parse_volume (.str "< 10") = 5
    ∧ parse_volume (.str "12") = 12 ∧ parse_volume (.str "abc") = 0
    ∧ parse_volume .other = 0 :=
  ⟨parse_volume_total_cases.1 7,
   parse_volume_total_cases.2.1 "< 10" (by decide),
   parse_volume_total_cases.2.2.1 "12" 12 (by decide) (by decide),
   parse_volume_total_cases.2.2.2.1 "abc" (by decide) (by decide),
   parse_volume_total_cases.2.2.2.2⟩

/-! ### C8: less-than sentinel normalization -/

/-- C8: a volume reported with the less-than sentinel notation (a string
beginning with `'<'`, e.g. `"< 10"`) is normalized to the numeric floor 5 —
not 0 and not a parse error — and that value feeds the total-volume (and
hence ratio) computation. -/
theorem volume_sentinel_floor :
    (∀ s : String, strHeadIs '<' s = true → parse_volume (.str s) = 5)
    ∧ ∀ (m : PyVal) (blog : Int),
        (analyzeEntry (some (.str "< 10", m)) blog).pc_search_volume = 5
        ∧ (analyzeEntry (some (.str "< 10", m)) blog).total_search_volume
            = 5 + parse_volume m := by
  constructor
  · intro s h
    simp [parse_volume, h]
  · intro m blog
    constructor
    · rfl
    · show parse_volume (.str "< 10") + parse_volume m = 5 + parse_volume m
      rfl

/-- Witness for C8 at the spec's example `"< 10"`. -/
theorem volume_sentinel_floor_witness :
    parse_volume (.str "< 10") = 5
    ∧ (analyzeEntry (some (.str "< 10", .int 3)) 7).total_search_volume = 5 + parse_volume (.int 3) :=
  ⟨volume_sentinel_floor.1 "< 10" (by decide),
   (volume_sentinel_floor.2 (.int 3) 7).2⟩

/-! ### C3: the competitiveness ratio is rounded, not exact -/

/-- C3 counterexample: with document count 1 and total search volume 3 the
code's ratio is `round(1/3, 3) = 333/1000`, not the exact rational `1/3`
the claim asserts. -/
theorem competition_ratio_not_exact :
    (analyzeEntry (some (.int 1, .int 2)) 1).total_search_volume = 3
    ∧ (analyzeEntry (some (.int 1, .int 2)) 1).blog_count = 1
    ∧ (analyzeEntry (some (.int 1, .int 2)) 1).competition_ratio ≠ (1 : ℚ) / 3
    ∧ (analyzeEntry (some (.int 1, .int 2)) 1).competition_ratio = 333 / 1000 := by
  refine ⟨rfl, rfl, ?_, ?_⟩
  · show round3 ((1 : ℚ) / 3) ≠ (1 : ℚ) / 3
    norm_num [round3, roundHalfEven]
  · show round3 ((1 : ℚ) / 3) = 333 / 1000
    norm_num [round3, roundHalfEven]

/-- C3 amended: for every analyzed keyword the ratio equals
`document_count / total_search_volume` **rounded to 3 decimal places**
(ties to even) when the total volume is positive, and 0 when it is 0 —
in both the permissive (`get_keyword_analysis_with_save`) and strict
(`get_keyword_analysis`) per-keyword computations. -/
theorem competition_ratio_rounded (volData : Option (PyVal × PyVal)) (blog : Int) :
    (analyzeEntry volData blog).competition_ratio
      = ratioSpec blog (analyzeEntry volData blog).total_search_volume
    ∧ ∀ e : MetricsDict, analyzeEntryStrict volData blog = some e →
        e.competition_ratio = ratioSpec blog e.total_search_volume := by
  constructor
  · rfl
  · intro e he
    match volData, he with
    | some vd, he =>
      have : analyzeEntry (some vd) blog = e := by
        simpa [analyzeEntryStrict] using he
      subst this
      rfl

/-- Witness for C3's amended claim at a concrete strict-mode entry. -/
theorem competition_ratio_rounded_witness :
    (analyzeEntry (some (.int 1, .int 2)) 1).competition_ratio
      = ratioSpec 1 (analyzeEntry (some (.int 1, .int 2)) 1).total_search_volume :=
  (competition_ratio_rounded (some (.int 1, .int 2)) 1).2
    (analyzeEntry (some (.int 1, .int 2)) 1) rfl

/-! ### C1: the stage classifier returns the first matching tier -/

/-- The scan over remaining stage numbers agrees with a first-match search
for the claim's tier condition, whenever every scanned tier has a
configuration entry. -/
theorem stageScan_eq_find (stages : List (Nat × StageRule)) (rules : Nat → StageRule)
    (d s : Int) :
    ∀ ns : List Nat, (∀ n ∈ ns, lookupStage stages n = some (rules n)) →
      stageScan stages d s ns
        = (ns.find? (fun n => tierMatchesSpec (rules n) d s n)).getD 0 := by
  intro ns
  induction ns with
  | nil => intro _; rfl
  | cons n ns ih =>
    intro h
    have hn : lookupStage stages n = some (rules n) := h n (by simp)
    have hns : ∀ m ∈ ns, lookupStage stages m = some (rules m) :=
      fun m hm => h m (by simp [hm])
    rw [List.find?_cons]
    simp only [stageScan, hn]
    by_cases hb : (leOptInf d (rules n).dMax && decide ((rules n).sMin.getD 0 ≤ s)
        && leOptInf s (rules n).sMax) = true
    · by_cases hn1 : n = 1
      · subst hn1
        simp [tierMatchesSpec, hb]
      · have hn1b : (n == 1) = false := by simpa using hn1
        by_cases hds : d ≤ s
        · simp [tierMatchesSpec, hb, hds, hn1, hn1b]
        · simp [tierMatchesSpec, hb, hds, hn1, hn1b, ih hns]
    · simp only [Bool.not_eq_true] at hb
      simp [tierMatchesSpec, hb, ih hns]

/-- C1: given nonnegative document count and search volume and a complete
5-entry tier-rule table, `get_keyword_stage` returns the first tier in 1..5
whose bounds hold, where tier 1 needs only the base bounds, tiers 2..5
additionally need `search volume ≥ document count`, a tier failing only that
extra check is skipped in favour of later tiers, and 0 is returned when no
tier matches. -/
theorem get_keyword_stage_first_match (stages : List (Nat × StageRule))
    (rules : Nat → StageRule) (d s : Int) (hd : 0 ≤ d) (hs : 0 ≤ s)
    (hcomplete : ∀ n ∈ [1, 2, 3, 4, 5], lookupStage stages n = some (rules n)) :
    get_keyword_stage (some stages) d s = classifySpec rules d s :=
  stageScan_eq_find stages rules d s [1, 2, 3, 4, 5] hcomplete

/-- Witness for C1: a concrete 5-entry table where tier 2's base bounds hold
for `(d, s) = (30, 20)` but `s ≥ d` fails, so scanning continues and ends
at 0. -/
theorem get_keyword_stage_first_match_witness :
    get_keyword_stage (some [(1, ⟨some 10, some 0, some 100⟩),
        (2, ⟨some 50, some 0, some 500⟩), (3, ⟨some 100, some 0, some 1000⟩),
        (4, ⟨some 500, some 0, some 5000⟩), (5, ⟨some 1000, some 0, some 10000⟩)])
        30 20
      = classifySpec (fun n =>
          if n = 1 then ⟨some 10, some 0, some 100⟩
          else if n = 2 then ⟨some 50, some 0, some 500⟩
          else if n = 3 then ⟨some 100, some 0, some 1000⟩
          else if n = 4 then ⟨some 500, some 0, some 5000⟩
          else ⟨some 1000, some 0, some 10000⟩) 30 20
    ∧ classifySpec (fun n =>
          if n = 1 then ⟨some 10, some 0, some 100⟩
          else if n = 2 then ⟨some 50, some 0, some 500⟩
          else if n = 3 then ⟨some 100, some 0, some 1000⟩
          else if n = 4 then ⟨some 500, some 0, some 5000⟩
          else ⟨some 1000, some 0, some 10000⟩) 30 20 = 0 :=
  ⟨get_keyword_stage_first_match _ _ 30 20 (by decide) (by decide) (by decide),
   by decide⟩

/-! ### Expansion-loop invariants (for C2, C4, C5, C6) -/

/-- `addRelated` never touches the visited set. -/
theorem addRelated_processed (maxKw : Nat) (origin : String) :
    ∀ (l : List String) (s : ExpState),
      (addRelated maxKw origin l s).processed = s.processed := by
  intro l
  induction l with
  | nil => intro s; rfl
  | cons kw kws ih =>
    intro s
    rw [addRelated]
    by_cases hk : kw ∈ s.pool
    · rw [if_pos hk, ih]
    · rw [if_neg hk]
      by_cases hl : (s.pool ++ [kw]).length < maxKw
      · simp only [if_pos hl, ih]
      · simp only [if_neg hl, ih]

/-- `addRelated` never touches the oracle-call log. -/
theorem addRelated_calls (maxKw : Nat) (origin : String) :
    ∀ (l : List String) (s : ExpState),
      (addRelated maxKw origin l s).calls = s.calls := by
  intro l
  induction l with
  | nil => intro s; rfl
  | cons kw kws ih =>
    intro s
    rw [addRelated]
    by_cases hk : kw ∈ s.pool
    · rw [if_pos hk, ih]
    · rw [if_neg hk]
      by_cases hl : (s.pool ++ [kw]).length < maxKw
      · simp only [if_pos hl, ih]
      · simp only [if_neg hl, ih]

/-- `addRelated` never touches the consecutive-empty counter. -/
theorem addRelated_consecEmpty (maxKw : Nat) (origin : String) :
    ∀ (l : List String) (s : ExpState),
      (addRelated maxKw origin l s).consecEmpty = s.consecEmpty := by
  intro l
  induction l with
  | nil => intro s; rfl
  | cons kw kws ih =>
    intro s
    rw [addRelated]
    by_cases hk : kw ∈ s.pool
    · rw [if_pos hk, ih]
    · rw [if_neg hk]
      by_cases hl : (s.pool ++ [kw]).length < maxKw
      · simp only [if_pos hl, ih]
      · simp only [if_neg hl, ih]

/-- `addRelated` only adds to the pool. -/
theorem addRelated_pool_mono (maxKw : Nat) (origin : String) :
    ∀ (l : List String) (s : ExpState) (k : String),
      k ∈ s.pool → k ∈ (addRelated maxKw origin l s).pool := by
  intro l
  induction l with
  | nil => intro s k hk; exact hk
  | cons kw kws ih =>
    intro s k hk
    rw [addRelated]
    by_cases hp : kw ∈ s.pool
    · rw [if_pos hp]; exact ih s k hk
    · rw [if_neg hp]
      by_cases hl : (s.pool ++ [kw]).length < maxKw
      · simp only [if_pos hl]
        exact ih _ k (by simp [hk])
      · simp only [if_neg hl]
        exact ih _ k (by simp [hk])

/-- One `addRelated` pass grows the pool by at most the number of related
keywords delivered by the oracle. -/
theorem addRelated_pool_length (maxKw : Nat) (origin : String) :
    ∀ (l : List String) (s : ExpState),
      (addRelated maxKw origin l s).pool.length ≤ s.pool.length + l.length := by
  intro l
  induction l with
  | nil => intro s; simp [addRelated]
  | cons kw kws ih =>
    intro s
    rw [addRelated]
    by_cases hp : kw ∈ s.pool
    · rw [if_pos hp]
      calc (addRelated maxKw origin kws s).pool.length
          ≤ s.pool.length + kws.length := ih s
        _ ≤ s.pool.length + (kw :: kws).length := by simp
    · rw [if_neg hp]
      by_cases hl : (s.pool ++ [kw]).length < maxKw
      · simp only [if_pos hl]
        calc (addRelated maxKw origin kws _).pool.length
            ≤ (s.pool ++ [kw]).length + kws.length := ih _
          _ = s.pool.length + (kw :: kws).length := by simp; omega
      · simp only [if_neg hl]
        calc (addRelated maxKw origin kws _).pool.length
            ≤ (s.pool ++ [kw]).length + kws.length := ih _
          _ = s.pool.length + (kw :: kws).length := by simp; omega

/-- One `addRelated` pass never increases the termination measure: every
enqueue is paid for by a pool addition still below `max_keywords`. -/
theorem addRelated_measure (maxKw : Nat) (origin : String) :
    ∀ (l : List String) (s : ExpState),
      expMeasure maxKw (addRelated maxKw origin l s) ≤ expMeasure maxKw s := by
  intro l
  induction l with
  | nil => intro s; exact le_refl _
  | cons kw kws ih =>
    intro s
    rw [addRelated]
    by_cases hp : kw ∈ s.pool
    · rw [if_pos hp]; exact ih s
    · rw [if_neg hp]
      by_cases hl : (s.pool ++ [kw]).length < maxKw
      · simp only [if_pos hl]
        refine le_trans (ih _) ?_
        simp only [expMeasure, List.length_append, List.length_cons, List.length_nil]
        simp only [List.length_append, List.length_cons, List.length_nil] at hl
        omega
      · simp only [if_neg hl]
        refine le_trans (ih _) ?_
        simp only [expMeasure, List.length_append, List.length_cons, List.length_nil]
        omega

/-- The visited set only grows across the loop. -/
theorem expandLoop_processed_mono (oracle : String → List String) (maxKw : Nat) :
    ∀ (fuel : Nat) (s : ExpState) (k : String),
      k ∈ s.processed → k ∈ (expandLoop oracle maxKw fuel s).processed := by
  intro fuel
  induction fuel with
  | zero => intro s k hk; exact hk
  | succ fuel ih =>
    intro s k hk
    rcases hq : s.queue with _ | ⟨⟨current, origin⟩, rest⟩
    · simp only [expandLoop, hq]
      exact hk
    · simp only [expandLoop, hq]
      by_cases hfull : maxKw ≤ s.pool.length
      · rw [if_pos hfull]; exact hk
      · rw [if_neg hfull]
        by_cases hvis : current ∈ s.processed
        · rw [if_pos hvis]
          exact ih _ k hk
        · rw [if_neg hvis]
          cases ho : oracle current with
          | nil =>
            by_cases htol : max_empty_tolerance ≤ s.consecEmpty + 1
            · rw [if_pos htol]
              exact List.mem_cons_of_mem _ hk
            · rw [if_neg htol]
              exact ih _ k (List.mem_cons_of_mem _ hk)
          | cons kw kws =>
            refine ih _ k ?_
            rw [addRelated_processed]
            exact List.mem_cons_of_mem _ hk

/-- The keyword pool only grows across the loop. -/
theorem expandLoop_pool_mono (oracle : String → List String) (maxKw : Nat) :
    ∀ (fuel : Nat) (s : ExpState) (k : String),
      k ∈ s.pool → k ∈ (expandLoop oracle maxKw fuel s).pool := by
  intro fuel
  induction fuel with
  | zero => intro s k hk; exact hk
  | succ fuel ih =>
    intro s k hk
    rcases hq : s.queue with _ | ⟨⟨current, origin⟩, rest⟩
    · simp only [expandLoop, hq]
      exact hk
    · simp only [expandLoop, hq]
      by_cases hfull : maxKw ≤ s.pool.length
      · rw [if_pos hfull]; exact hk
      · rw [if_neg hfull]
        by_cases hvis : current ∈ s.processed
        · rw [if_pos hvis]
          exact ih _ k hk
        · rw [if_neg hvis]
          cases ho : oracle current with
          | nil =>
            by_cases htol : max_empty_tolerance ≤ s.consecEmpty + 1
            · rw [if_pos htol]
              exact hk
            · rw [if_neg htol]
              exact ih _ k hk
          | cons kw kws =>
            exact ih _ k (addRelated_pool_mono maxKw origin (kw :: kws) _ k hk)

/-- Pool-size bound: with every oracle response of length at most `B`, the
final pool is no larger than the starting pool or `max_keywords - 1 + B`,
whichever is bigger (the loop can overshoot `max_keywords` by at most
`B - 1` in its last iteration). -/
theorem expandLoop_pool_length (oracle : String → List String) (maxKw B : Nat)
    (hB : ∀ k, (oracle k).length ≤ B) :
    ∀ (fuel : Nat) (s : ExpState),
      (expandLoop oracle maxKw fuel s).pool.length
        ≤ max s.pool.length (maxKw - 1 + B) := by
  intro fuel
  induction fuel with
  | zero => intro s; exact le_max_left _ _
  | succ fuel ih =>
    intro s
    rcases hq : s.queue with _ | ⟨⟨current, origin⟩, rest⟩
    · simp only [expandLoop, hq]
      exact le_max_left _ _
    · simp only [expandLoop, hq]
      by_cases hfull : maxKw ≤ s.pool.length
      · rw [if_pos hfull]; exact le_max_left _ _
      · rw [if_neg hfull]
        by_cases hvis : current ∈ s.processed
        · rw [if_pos hvis]
          exact ih _
        · rw [if_neg hvis]
          cases ho : oracle current with
          | nil =>
            by_cases htol : max_empty_tolerance ≤ s.consecEmpty + 1
            · rw [if_pos htol]
              exact le_max_left _ _
            · rw [if_neg htol]
              exact ih _
          | cons kw kws =>
            refine le_trans (ih _) (max_le ?_ (le_max_right _ _))
            refine le_trans (addRelated_pool_length maxKw origin (kw :: kws) _) ?_
            have hlen : (kw :: kws).length ≤ B := ho ▸ hB current
            simp only [List.length_cons] at hlen ⊢
            refine le_max_of_le_right ?_
            omega

/-- With fuel at least the termination measure, the loop ends in a state
satisfying one of its exit conditions. -/
theorem expandLoop_finished (oracle : String → List String) (maxKw : Nat) :
    ∀ (fuel : Nat) (s : ExpState), expMeasure maxKw s ≤ fuel →
      Finished maxKw (expandLoop oracle maxKw fuel s) := by
  intro fuel
  induction fuel with
  | zero =>
    intro s hm
    simp only [expMeasure, Nat.le_zero, Nat.add_eq_zero] at hm
    exact Or.inl (List.length_eq_zero.mp hm.1)
  | succ fuel ih =>
    intro s hm
    rcases hq : s.queue with _ | ⟨⟨current, origin⟩, rest⟩
    · simp only [expandLoop, hq]
      exact Or.inl hq
    · simp only [expandLoop, hq]
      have hql : s.queue.length = rest.length + 1 := by rw [hq]; rfl
      by_cases hfull : maxKw ≤ s.pool.length
      · rw [if_pos hfull]; exact Or.inr (Or.inl hfull)
      · rw [if_neg hfull]
        have hm2 : rest.length + (maxKw - s.pool.length) ≤ fuel := by
          simp only [expMeasure, hql] at hm
          omega
        by_cases hvis : current ∈ s.processed
        · rw [if_pos hvis]
          exact ih _ hm2
        · rw [if_neg hvis]
          cases ho : oracle current with
          | nil =>
            by_cases htol : max_empty_tolerance ≤ s.consecEmpty + 1
            · rw [if_pos htol]
              exact Or.inr (Or.inr htol)
            · rw [if_neg htol]
              exact ih _ hm2
          | cons kw kws =>
            refine ih _ (le_trans ?_ hm2)
            exact addRelated_measure maxKw origin (kw :: kws) _

/-- An exhausted queue stops the loop at once, whatever the fuel. -/
theorem expandLoop_queue_nil (oracle : String → List String) (maxKw : Nat)
    (fuel : Nat) (s : ExpState) (hq : s.queue = []) :
    expandLoop oracle maxKw fuel s = s := by
  cases fuel with
  | zero => rfl
  | succ fuel => simp only [expandLoop, hq]

/-- Fuel stability: once the fuel covers the termination measure, adding
more fuel does not change the result — the fuel-indexed run is the loop's
semantics, i.e. the `while` loop terminates. -/
theorem expandLoop_fuel_stable (oracle : String → List String) (maxKw : Nat) :
    ∀ (fuel : Nat) (s : ExpState), expMeasure maxKw s ≤ fuel →
      ∀ extra : Nat,
        expandLoop oracle maxKw (fuel + extra) s = expandLoop oracle maxKw fuel s := by
  intro fuel
  induction fuel with
  | zero =>
    intro s hm extra
    simp only [expMeasure, Nat.le_zero, Nat.add_eq_zero] at hm
    have hq : s.queue = [] := List.length_eq_zero.mp hm.1
    rw [expandLoop_queue_nil oracle maxKw _ s hq, expandLoop_queue_nil oracle maxKw _ s hq]
  | succ fuel ih =>
    intro s hm extra
    have hstep : fuel + 1 + extra = (fuel + extra) + 1 := by omega
    rw [hstep]
    rcases hq : s.queue with _ | ⟨⟨current, origin⟩, rest⟩
    · simp only [expandLoop, hq]
    · simp only [expandLoop, hq]
      have hql : s.queue.length = rest.length + 1 := by rw [hq]; rfl
      by_cases hfull : maxKw ≤ s.pool.length
      · rw [if_pos hfull, if_pos hfull]
      · rw [if_neg hfull, if_neg hfull]
        have hm2 : rest.length + (maxKw - s.pool.length) ≤ fuel := by
          simp only [expMeasure, hql] at hm
          omega
        by_cases hvis : current ∈ s.processed
        · rw [if_pos hvis, if_pos hvis]
          refine ih _ ?_ extra
          simpa only [expMeasure] using hm2
        · rw [if_neg hvis, if_neg hvis]
          cases ho : oracle current with
          | nil =>
            by_cases htol : max_empty_tolerance ≤ s.consecEmpty + 1
            · rw [if_pos htol, if_pos htol]
            · rw [if_neg htol, if_neg htol]
              refine ih _ ?_ extra
              simpa only [expMeasure] using hm2
          | cons kw kws =>
            refine ih _ ?_ extra
            refine le_trans (addRelated_measure maxKw origin (kw :: kws) _) ?_
            simpa only [expMeasure] using hm2

/-- Invariant: the oracle-call log coincides with the visited set and has no
duplicates — a keyword is logged (and the oracle called) exactly when it is
first marked visited. -/
theorem expandLoop_calls_inv (oracle : String → List String) (maxKw : Nat) :
    ∀ (fuel : Nat) (s : ExpState),
      s.calls = s.processed → s.processed.Nodup →
      (expandLoop oracle maxKw fuel s).calls
          = (expandLoop oracle maxKw fuel s).processed
        ∧ (expandLoop oracle maxKw fuel s).processed.Nodup := by
  intro fuel
  induction fuel with
  | zero => intro s h1 h2; exact ⟨h1, h2⟩
  | succ fuel ih =>
    intro s h1 h2
    rcases hq : s.queue with _ | ⟨⟨current, origin⟩, rest⟩
    · simp only [expandLoop, hq]
      exact ⟨h1, h2⟩
    · simp only [expandLoop, hq]
      by_cases hfull : maxKw ≤ s.pool.length
      · rw [if_pos hfull]; exact ⟨h1, h2⟩
      · rw [if_neg hfull]
        by_cases hvis : current ∈ s.processed
        · rw [if_pos hvis]
          exact ih _ h1 h2
        · rw [if_neg hvis]
          have h1c : current :: s.calls = current :: s.processed := by rw [h1]
          have h2c : (current :: s.processed).Nodup := List.nodup_cons.mpr ⟨hvis, h2⟩
          cases ho : oracle current with
          | nil =>
            by_cases htol : max_empty_tolerance ≤ s.consecEmpty + 1
            · rw [if_pos htol]
              exact ⟨h1c, h2c⟩
            · rw [if_neg htol]
              exact ih _ h1c h2c
          | cons kw kws =>
            refine ih _ ?_ ?_
            · rw [addRelated_calls, addRelated_processed]
              exact h1c
            · rw [addRelated_processed]
              exact h2c

/-- Counter bound: entering the loop with the consecutive-empty counter
below the tolerance, the loop never lets it pass the tolerance — it stops
as soon as the threshold is reached. -/
theorem expandLoop_consecEmpty_le (oracle : String → List String) (maxKw : Nat) :
    ∀ (fuel : Nat) (s : ExpState),
      s.consecEmpty < max_empty_tolerance →
      (expandLoop oracle maxKw fuel s).consecEmpty ≤ max_empty_tolerance := by
  intro fuel
  induction fuel with
  | zero => intro s h; exact le_of_lt h
  | succ fuel ih =>
    intro s h
    rcases hq : s.queue with _ | ⟨⟨current, origin⟩, rest⟩
    · simp only [expandLoop, hq]
      exact le_of_lt h
    · simp only [expandLoop, hq]
      by_cases hfull : maxKw ≤ s.pool.length
      · rw [if_pos hfull]; exact le_of_lt h
      · rw [if_neg hfull]
        by_cases hvis : current ∈ s.processed
        · rw [if_pos hvis]
          exact ih _ h
        · rw [if_neg hvis]
          cases ho : oracle current with
          | nil =>
            by_cases htol : max_empty_tolerance ≤ s.consecEmpty + 1
            · rw [if_pos htol]
              exact Nat.succ_le_of_lt h
            · rw [if_neg htol]
              exact ih _ (lt_of_not_le htol)
          | cons kw kws =>
            refine ih _ ?_
            rw [addRelated_consecEmpty]
            simp only [max_empty_tolerance]
            omega

/-- The chosen fuel covers the initial termination measure. -/
theorem initMeasure_le (seeds : List String) (maxKw : Nat) :
    expMeasure maxKw (initState seeds) ≤ initFuel seeds maxKw := by
  simp only [expMeasure, initState, initFuel, List.length_map]
  omega

/-! ### C4: the expansion loop terminates -/

/-- C4: for every oracle (finite by construction: each call returns one
finite list) and every `max_pool_size > 0`, the expansion run ends in a
state satisfying one of the loop's exit conditions, giving it more fuel
changes nothing (the `while` loop terminates after finitely many dequeues),
and the visited set only ever grows. -/
theorem expansion_terminates (oracle : String → List String) (maxKw : Nat)
    (seeds : List String) (hmax : 0 < maxKw) :
    Finished maxKw (expandRun oracle maxKw seeds)
    ∧ (∀ extra : Nat,
        expandLoop oracle maxKw (initFuel seeds maxKw + extra) (initState seeds)
          = expandRun oracle maxKw seeds)
    ∧ ∀ (fuel : Nat) (s : ExpState) (k : String),
        k ∈ s.processed → k ∈ (expandLoop oracle maxKw fuel s).processed :=
  ⟨expandLoop_finished oracle maxKw _ _ (initMeasure_le seeds maxKw),
   fun extra => expandLoop_fuel_stable oracle maxKw _ _ (initMeasure_le seeds maxKw) extra,
   expandLoop_processed_mono oracle maxKw⟩

/-- Witness for C4 on a concrete run. -/
theorem expansion_terminates_witness :
    Finished 3 (expandRun (fun _ => []) 3 ["a"])
    ∧ expandLoop (fun _ => ([] : List String)) 3 (initFuel ["a"] 3 + 7) (initState ["a"])
        = expandRun (fun _ => []) 3 ["a"] :=
  ⟨(expansion_terminates (fun _ => []) 3 ["a"] (by decide)).1,
   (expansion_terminates (fun _ => []) 3 ["a"] (by decide)).2.1 7⟩

/-! ### C5: no keyword is passed to the oracle twice -/

/-- C5: within a single expansion run no keyword is passed to the
related-keywords oracle more than once (the call log has no duplicates),
and the call log coincides with the visited set: every oracle call is
preceded by marking the keyword visited, and a dequeued keyword already
visited is skipped without a call. -/
theorem expansion_no_repeat_oracle_calls (oracle : String → List String)
    (maxKw : Nat) (seeds : List String) :
    (expandRun oracle maxKw seeds).calls.Nodup
    ∧ (expandRun oracle maxKw seeds).calls = (expandRun oracle maxKw seeds).processed := by
  have h := expandLoop_calls_inv oracle maxKw (initFuel seeds maxKw) (initState seeds)
    rfl List.nodup_nil
  exact ⟨h.1 ▸ h.2, h.1⟩

/-! ### C2: seeds are kept, but the pool bound is violated -/

/-- C2 counterexample: seeds `["a"]`, `max_pool_size = 2` (which is ≥ the
number of seeds) and an oracle answering `["b", "c", "d"]` for `"a"` yield a
pool of 4 keywords: the claimed bound `|pool| ≤ max_pool_size` fails,
because the size check sits only at the loop head and one iteration adds
every new oracle result to the pool. -/
theorem expansion_pool_bound_counterexample :
    (["a"] : List String).length ≤ 2
    ∧ expand_keywords_recursive (fun k => if k = "a" then ["b", "c", "d"] else []) ["a"] 2
        = ["a", "b", "c", "d"]
    ∧ ¬ (expand_keywords_recursive
          (fun k => if k = "a" then ["b", "c", "d"] else []) ["a"] 2).length ≤ 2 := by
  refine ⟨by decide, rfl, ?_⟩
  have h4 : (expand_keywords_recursive
      (fun k => if k = "a" then ["b", "c", "d"] else []) ["a"] 2).length = 4 := rfl
  rw [h4]
  decide

/-- Seeds always end up in the initial pool. -/
theorem poolInit_subset (seeds : List String) : ∀ k ∈ seeds, k ∈ poolInit seeds := by
  have haux : ∀ (l acc : List String) (k : String), k ∈ acc ∨ k ∈ l →
      k ∈ l.foldl (fun acc k => if k ∈ acc then acc else acc ++ [k]) acc := by
    intro l
    induction l with
    | nil =>
      intro acc k hk
      rcases hk with hk | hk
      · exact hk
      · cases hk
    | cons x xs ih =>
      intro acc k hk
      simp only [List.foldl_cons]
      refine ih _ k ?_
      by_cases hx : x ∈ acc
      · rw [if_pos hx]
        rcases hk with hk | hk
        · exact Or.inl hk
        · rcases List.mem_cons.mp hk with rfl | hk
          · exact Or.inl hx
          · exact Or.inr hk
      · rw [if_neg hx]
        rcases hk with hk | hk
        · exact Or.inl (by simp [hk])
        · rcases List.mem_cons.mp hk with rfl | hk
          · exact Or.inl (by simp)
          · exact Or.inr hk
  intro k hk
  exact haux seeds [] k (Or.inr hk)

/-- Deduplicating the seeds cannot make the list longer. -/
theorem poolInit_length_le (seeds : List String) :
    (poolInit seeds).length ≤ seeds.length := by
  have haux : ∀ (l acc : List String),
      (l.foldl (fun acc k => if k ∈ acc then acc else acc ++ [k]) acc).length
        ≤ acc.length + l.length := by
    intro l
    induction l with
    | nil => intro acc; simp
    | cons x xs ih =>
      intro acc
      simp only [List.foldl_cons]
      by_cases hx : x ∈ acc
      · rw [if_pos hx]
        refine le_trans (ih acc) ?_
        simp only [List.length_cons]
        omega
      · rw [if_neg hx]
        refine le_trans (ih _) ?_
        simp only [List.length_append, List.length_cons, List.length_nil]
        omega
  simpa using haux seeds []

/-- C2 amended: every seed appears in the returned pool (whenever
`max_pool_size ≥ |seeds|` — in fact always), and the pool size is bounded by
`max(|seeds|, max_pool_size - 1 + B)` for any bound `B` on the length of an
oracle response; the pool may exceed `max_pool_size` by up to `B - 1`, but
by no more. -/
theorem expansion_pool_amended (oracle : String → List String) (maxKw B : Nat)
    (seeds : List String) (hseeds : seeds.length ≤ maxKw)
    (hB : ∀ k, (oracle k).length ≤ B) :
    (∀ k ∈ seeds, k ∈ expand_keywords_recursive oracle seeds maxKw)
    ∧ (expand_keywords_recursive oracle seeds maxKw).length
        ≤ max seeds.length (maxKw - 1 + B) := by
  constructor
  · intro k hk
    exact expandLoop_pool_mono oracle maxKw _ _ k (poolInit_subset seeds k hk)
  · refine le_trans (expandLoop_pool_length oracle maxKw B hB _ _) ?_
    have h := poolInit_length_le seeds
    exact max_le_max_right _ (by simpa [initState] using h)

/-- Witness for C2's amended claim on the counterexample run. -/
theorem expansion_pool_amended_witness :
    ("a" ∈ expand_keywords_recursive
        (fun k => if k = "a" then ["b", "c", "d"] else []) ["a"] 2)
    ∧ (expand_keywords_recursive
        (fun k => if k = "a" then ["b", "c", "d"] else []) ["a"] 2).length
        ≤ max (["a"] : List String).length (2 - 1 + 3) :=
  ⟨(expansion_pool_amended (fun k => if k = "a" then ["b", "c", "d"] else []) 2 3 ["a"]
      (by decide) (fun k => by by_cases hk : k = "a" <;> simp [hk])).1 "a" (by decide),
   (expansion_pool_amended (fun k => if k = "a" then ["b", "c", "d"] else []) 2 3 ["a"]
      (by decide) (fun k => by by_cases hk : k = "a" <;> simp [hk])).2⟩

/-! ### C6: the consecutive-empty circuit breaker -/

/-- C6: the tolerance threshold is 50; when an unvisited keyword is dequeued
and the oracle answers empty, the consecutive-empty counter is incremented
and, exactly when it reaches the threshold, the whole loop stops on the
spot; a non-empty answer resets the counter to 0 before expansion continues;
and a full run started at counter 0 never ends with the counter beyond the
threshold. -/
theorem expansion_circuit_breaker (oracle : String → List String) (maxKw fuel : Nat)
    (s : ExpState) (current origin : String) (rest : List (String × String))
    (hq : s.queue = (current, origin) :: rest)
    (hfull : s.pool.length < maxKw)
    (hvis : current ∉ s.processed) :
    max_empty_tolerance = 50
    ∧ (oracle current = [] → max_empty_tolerance ≤ s.consecEmpty + 1 →
        expandLoop oracle maxKw (fuel + 1) s
          = { processed := current :: s.processed, pool := s.pool, queue := rest,
              consecEmpty := s.consecEmpty + 1, calls := current :: s.calls })
    ∧ (oracle current = [] → s.consecEmpty + 1 < max_empty_tolerance →
        expandLoop oracle maxKw (fuel + 1) s
          = expandLoop oracle maxKw fuel
              { processed := current :: s.processed, pool := s.pool, queue := rest,
                consecEmpty := s.consecEmpty + 1, calls := current :: s.calls })
    ∧ (oracle current ≠ [] →
        (expandLoop oracle maxKw (fuel + 1) s
          = expandLoop oracle maxKw fuel
              (addRelated maxKw origin (oracle current)
                { processed := current :: s.processed, pool := s.pool, queue := rest,
                  consecEmpty := 0, calls := current :: s.calls }))
        ∧ (addRelated maxKw origin (oracle current)
            { processed := current :: s.processed, pool := s.pool, queue := rest,
              consecEmpty := 0, calls := current :: s.calls }).consecEmpty = 0)
    ∧ ∀ seeds : List String,
        (expandRun oracle maxKw seeds).consecEmpty ≤ max_empty_tolerance := by
  refine ⟨rfl, ?_, ?_, ?_, ?_⟩
  · intro ho htol
    simp only [expandLoop, hq, ho]
    rw [if_neg (not_le.mpr hfull), if_neg hvis, if_pos htol]
  · intro ho htol
    simp only [expandLoop, hq, ho]
    rw [if_neg (not_le.mpr hfull), if_neg hvis, if_neg (not_le.mpr htol)]
  · intro ho
    rcases List.exists_cons_of_ne_nil ho with ⟨kw, kws, hkw⟩
    constructor
    · simp only [expandLoop, hq, hkw]
      rw [if_neg (not_le.mpr hfull), if_neg hvis]
    · rw [addRelated_consecEmpty]
  · intro seeds
    refine expandLoop_consecEmpty_le oracle maxKw _ _ ?_
    simp [initState, max_empty_tolerance]

/-- Witness for C6: a state one empty response away from the threshold halts
with the counter at 50. -/
theorem expansion_circuit_breaker_witness :
    expandLoop (fun _ => ([] : List String)) 5 (0 + 1)
        { processed := [], pool := ["a"], queue := [("a", "a")],
          consecEmpty := 49, calls := [] }
      = { processed := ["a"], pool := ["a"], queue := [],
          consecEmpty := 50, calls := ["a"] } :=
  (expansion_circuit_breaker (fun _ => []) 5 0
      { processed := [], pool := ["a"], queue := [("a", "a")],
        consecEmpty := 49, calls := [] }
      "a" "a" [] rfl (by decide) (by decide)).2.1 rfl (by decide)

/-! ### C7: last-write-wins merge, sorted by ratio -/

/-- A row kept by the deduplication was present in the input. -/
theorem dropDupKeepLast_subset :
    ∀ (l : List Row) (r : Row), r ∈ dropDupKeepLast l → r ∈ l := by
  intro l
  induction l with
  | nil => intro r h; cases h
  | cons x xs ih =>
    intro r h
    rw [dropDupKeepLast] at h
    by_cases hk : x.keyword ∈ xs.map Row.keyword
    · rw [if_pos hk] at h
      exact List.mem_cons_of_mem _ (ih r h)
    · rw [if_neg hk] at h
      rcases List.mem_cons.mp h with rfl | h
      · exact List.mem_cons_self _ _
      · exact List.mem_cons_of_mem _ (ih r h)

/-- After deduplication every keyword occurs at most once. -/
theorem dropDupKeepLast_keys_nodup :
    ∀ l : List Row, ((dropDupKeepLast l).map Row.keyword).Nodup := by
  intro l
  induction l with
  | nil => exact List.nodup_nil
  | cons x xs ih =>
    rw [dropDupKeepLast]
    by_cases hk : x.keyword ∈ xs.map Row.keyword
    · rw [if_pos hk]; exact ih
    · rw [if_neg hk]
      simp only [List.map_cons, List.nodup_cons]
      refine ⟨?_, ih⟩
      intro hmem
      rcases List.mem_map.mp hmem with ⟨r, hr, hrk⟩
      exact hk (List.mem_map.mpr ⟨r, dropDupKeepLast_subset xs r hr, hrk⟩)

/-- Deduplicating a longer list keeps whatever the tail's deduplication
keeps. -/
theorem mem_dropDupKeepLast_cons (x : Row) (rs : List Row) (r : Row)
    (h : r ∈ dropDupKeepLast rs) : r ∈ dropDupKeepLast (x :: rs) := by
  rw [dropDupKeepLast]
  by_cases hk : x.keyword ∈ rs.map Row.keyword
  · rw [if_pos hk]; exact h
  · rw [if_neg hk]; exact List.mem_cons_of_mem _ h

/-- A row whose keyword does not recur later survives keep-last
deduplication. -/
theorem mem_dropDupKeepLast_of_last :
    ∀ (l1 l2 : List Row) (r : Row),
      r.keyword ∉ l2.map Row.keyword → r ∈ dropDupKeepLast (l1 ++ r :: l2) := by
  intro l1
  induction l1 with
  | nil =>
    intro l2 r h
    simp only [List.nil_append]
    rw [dropDupKeepLast, if_neg h]
    exact List.mem_cons_self _ _
  | cons x xs ih =>
    intro l2 r h
    simp only [List.cons_append]
    exact mem_dropDupKeepLast_cons x _ r (ih l2 r h)

/-- Splitting a list at a member whose key is unique: the key does not recur
in the suffix. -/
theorem nodup_key_split {α β : Type} (f : α → β) :
    ∀ (l : List α) (a : α), a ∈ l → (l.map f).Nodup →
      ∃ s t, l = s ++ a :: t ∧ f a ∉ t.map f := by
  intro l a ha hnd
  rcases List.append_of_mem ha with ⟨s, t, rfl⟩
  refine ⟨s, t, rfl, ?_⟩
  simp only [List.map_append, List.map_cons, List.nodup_append] at hnd
  exact (List.nodup_cons.mp hnd.2.1).1

/-- The keys of the rows built from the incoming mapping are its keys. -/
theorem newRows_keys (l : List (String × MetricsDict)) :
    (l.map (fun p => toRow p.1 p.2)).map Row.keyword = l.map Prod.fst := by
  induction l with
  | nil => rfl
  | cons p ps ih => simp [toRow, ih]

/-- C7: merging an incoming keyword-metrics mapping into an existing table
keeps the incoming row for every key present in both (last-write-wins),
keeps every row whose key appears in only one side, produces no other rows,
leaves each keyword at most once, and sorts the full resulting table
ascending by competitiveness ratio. -/
theorem save_to_excel_merge (ex : List Row) (incoming : List (String × MetricsDict))
    (hex : (ex.map Row.keyword).Nodup)
    (hinc : (incoming.map Prod.fst).Nodup) :
    (∀ p ∈ incoming, toRow p.1 p.2 ∈ save_to_excel_table (some ex) incoming)
    ∧ (∀ r ∈ ex, r.keyword ∉ incoming.map Prod.fst →
        r ∈ save_to_excel_table (some ex) incoming)
    ∧ (∀ r ∈ save_to_excel_table (some ex) incoming,
        r ∈ ex ∨ ∃ p ∈ incoming, r = toRow p.1 p.2)
    ∧ ((save_to_excel_table (some ex) incoming).map Row.keyword).Nodup
    ∧ List.Sorted ratioLE (save_to_excel_table (some ex) incoming) := by
  have hmode : ¬ (MODE = "AUTO") := by decide
  have hout : save_to_excel_table (some ex) incoming
      = List.insertionSort ratioLE
          (dropDupKeepLast (ex ++ incoming.map (fun p => toRow p.1 p.2))) := by
    simp [save_to_excel_table, hmode]
  have hperm : (save_to_excel_table (some ex) incoming).Perm
      (dropDupKeepLast (ex ++ incoming.map (fun p => toRow p.1 p.2))) := by
    rw [hout]
    exact List.perm_insertionSort _ _
  refine ⟨?_, ?_, ?_, ?_, ?_⟩
  · intro p hp
    rw [hperm.mem_iff]
    rcases nodup_key_split Prod.fst incoming p hp hinc with ⟨s, t, hl, hkey⟩
    rw [hl]
    rw [show ex ++ (s ++ p :: t).map (fun p => toRow p.1 p.2)
        = (ex ++ s.map (fun p => toRow p.1 p.2)) ++ toRow p.1 p.2
            :: t.map (fun p => toRow p.1 p.2) by simp]
    refine mem_dropDupKeepLast_of_last _ _ _ ?_
    rw [newRows_keys]
    exact hkey
  · intro r hr hkey
    rw [hperm.mem_iff]
    rcases nodup_key_split Row.keyword ex r hr hex with ⟨s, t, hl, hkey2⟩
    rw [hl]
    rw [show (s ++ r :: t) ++ incoming.map (fun p => toRow p.1 p.2)
        = s ++ r :: (t ++ incoming.map (fun p => toRow p.1 p.2)) by simp]
    refine mem_dropDupKeepLast_of_last _ _ _ ?_
    rw [List.map_append, newRows_keys]
    intro hmem
    rcases List.mem_append.mp hmem with h | h
    · exact hkey2 h
    · exact hkey h
  · intro r hr
    have h2 := dropDupKeepLast_subset _ r (hperm.mem_iff.mp hr)
    rcases List.mem_append.mp h2 with h | h
    · exact Or.inl h
    · rcases List.mem_map.mp h with ⟨p, hp, he⟩
      exact Or.inr ⟨p, hp, he.symm⟩
  · exact ((hperm.map Row.keyword).nodup_iff).mpr (dropDupKeepLast_keys_nodup _)
  · rw [hout]
    exact List.sorted_insertionSort ratioLE _

/-- Witness for C7 on the spec's example shape: incoming `"a"` replaces the
stored `"a"`, stored-only `"b"` survives, and the result is ratio-sorted. -/
theorem save_to_excel_merge_witness :
    toRow "a" ⟨1, 1, 2, 5, 2, some 2⟩
      ∈ save_to_excel_table
          (some [⟨"b", 0, 0, 0, 0, 2, 1⟩, ⟨"a", 0, 0, 0, 0, 3, 1⟩])
          [("a", ⟨1, 1, 2, 5, 2, some 2⟩)]
    ∧ (⟨"b", 0, 0, 0, 0, 2, 1⟩ : Row)
      ∈ save_to_excel_table
          (some [⟨"b", 0, 0, 0, 0, 2, 1⟩, ⟨"a", 0, 0, 0, 0, 3, 1⟩])
          [("a", ⟨1, 1, 2, 5, 2, some 2⟩)]
    ∧ List.Sorted ratioLE
        (save_to_excel_table
          (some [⟨"b", 0, 0, 0, 0, 2, 1⟩, ⟨"a", 0, 0, 0, 0, 3, 1⟩])
          [("a", ⟨1, 1, 2, 5, 2, some 2⟩)]) :=
  ⟨(save_to_excel_merge [⟨"b", 0, 0, 0, 0, 2, 1⟩, ⟨"a", 0, 0, 0, 0, 3, 1⟩]
      [("a", ⟨1, 1, 2, 5, 2, some 2⟩)] (by decide) (by decide)).1
      ("a", ⟨1, 1, 2, 5, 2, some 2⟩) (by decide),
   (save_to_excel_merge [⟨"b", 0, 0, 0, 0, 2, 1⟩, ⟨"a", 0, 0, 0, 0, 3, 1⟩]
      [("a", ⟨1, 1, 2, 5, 2, some 2⟩)] (by decide) (by decide)).2.1
      ⟨"b", 0, 0, 0, 0, 2, 1⟩ (by decide) (by decide),
   (save_to_excel_merge [⟨"b", 0, 0, 0, 0, 2, 1⟩, ⟨"a", 0, 0, 0, 0, 3, 1⟩]
      [("a", ⟨1, 1, 2, 5, 2, some 2⟩)] (by decide) (by decide)).2.2.2.2⟩

/-! ### C9: the target-stage filters mutate their input in place -/

/-- Invariant of the filter fold: the heap keeps every dictionary's blog
count and total volume unchanged (only `'stage'` keys are written), every
result entry's shared dictionary carries the `'stage'` value classified from
the original heap, and every result entry comes from the accumulator or the
input. -/
theorem filterFold_spec (stages : List (Nat × StageRule)) (targetStages : List Nat)
    (store₀ : Nat → MetricsDict) :
    ∀ (input : List (String × Nat)) (acc : List (String × Nat) × (Nat → MetricsDict)),
      (∀ a, (acc.2 a).blog_count = (store₀ a).blog_count
          ∧ (acc.2 a).total_search_volume = (store₀ a).total_search_volume) →
      (∀ p ∈ acc.1, (acc.2 p.2).stage
          = some (get_keyword_stage (some stages) (store₀ p.2).blog_count
              (store₀ p.2).total_search_volume)) →
      (∀ a, ((input.foldl (filterStep stages targetStages) acc).2 a).blog_count
            = (store₀ a).blog_count
          ∧ ((input.foldl (filterStep stages targetStages) acc).2 a).total_search_volume
            = (store₀ a).total_search_volume)
      ∧ (∀ p ∈ (input.foldl (filterStep stages targetStages) acc).1,
          ((input.foldl (filterStep stages targetStages) acc).2 p.2).stage
            = some (get_keyword_stage (some stages) (store₀ p.2).blog_count
                (store₀ p.2).total_search_volume))
      ∧ (∀ p ∈ (input.foldl (filterStep stages targetStages) acc).1,
          p ∈ acc.1 ∨ p ∈ input) := by
  intro input
  induction input with
  | nil =>
    intro acc h1 h2
    exact ⟨h1, h2, fun p hp => Or.inl hp⟩
  | cons entry rest ih =>
    intro acc h1 h2
    simp only [List.foldl_cons]
    by_cases hin : get_keyword_stage (some stages) (acc.2 entry.2).blog_count
        (acc.2 entry.2).total_search_volume ∈ targetStages
    · have hstv : get_keyword_stage (some stages) (acc.2 entry.2).blog_count
            (acc.2 entry.2).total_search_volume
          = get_keyword_stage (some stages) (store₀ entry.2).blog_count
            (store₀ entry.2).total_search_volume := by
        rw [(h1 entry.2).1, (h1 entry.2).2]
      have hunf : filterStep stages targetStages acc entry
          = (acc.1 ++ [entry],
             Function.update acc.2 entry.2
               { acc.2 entry.2 with stage := some (get_keyword_stage (some stages)
                   (acc.2 entry.2).blog_count (acc.2 entry.2).total_search_volume) }) := by
        simp only [filterStep, if_pos hin]
      rw [hunf]
      have hinv1 : ∀ a,
          ((Function.update acc.2 entry.2
              { acc.2 entry.2 with stage := some (get_keyword_stage (some stages)
                  (acc.2 entry.2).blog_count (acc.2 entry.2).total_search_volume) }) a).blog_count
            = (store₀ a).blog_count
          ∧ ((Function.update acc.2 entry.2
              { acc.2 entry.2 with stage := some (get_keyword_stage (some stages)
                  (acc.2 entry.2).blog_count (acc.2 entry.2).total_search_volume) }) a).total_search_volume
            = (store₀ a).total_search_volume := by
        intro a
        rcases eq_or_ne a entry.2 with rfl | ha
        · rw [Function.update_same]
          exact h1 entry.2
        · rw [Function.update_noteq ha]
          exact h1 a
      have hinv2 : ∀ p ∈ acc.1 ++ [entry],
          ((Function.update acc.2 entry.2
              { acc.2 entry.2 with stage := some (get_keyword_stage (some stages)
                  (acc.2 entry.2).blog_count (acc.2 entry.2).total_search_volume) }) p.2).stage
            = some (get_keyword_stage (some stages) (store₀ p.2).blog_count
                (store₀ p.2).total_search_volume) := by
        intro p hp
        rcases List.mem_append.mp hp with hp | hp
        · rcases eq_or_ne p.2 entry.2 with ha | ha
          · rw [ha, Function.update_same]
            show some _ = _
            rw [hstv]
          · rw [Function.update_noteq ha]
            exact h2 p hp
        · rcases List.mem_singleton.mp hp with rfl
          rw [Function.update_same]
          show some _ = _
          rw [hstv]
      obtain ⟨g1, g2, g3⟩ := ih (acc.1 ++ [entry],
        Function.update acc.2 entry.2
          { acc.2 entry.2 with stage := some (get_keyword_stage (some stages)
              (acc.2 entry.2).blog_count (acc.2 entry.2).total_search_volume) })
        hinv1 hinv2
      refine ⟨g1, g2, fun p hp => ?_⟩
      rcases g3 p hp with h | h
      · rcases List.mem_append.mp h with h | h
        · exact Or.inl h
        · rcases List.mem_singleton.mp h with rfl
          exact Or.inr (List.mem_cons_self _ _)
      · exact Or.inr (List.mem_cons_of_mem _ h)
    · have hunf : filterStep stages targetStages acc entry = acc := by
        simp only [filterStep, if_neg hin]
      rw [hunf]
      obtain ⟨g1, g2, g3⟩ := ih _ h1 h2
      refine ⟨g1, g2, fun p hp => ?_⟩
      rcases g3 p hp with h | h
      · exact Or.inl h
      · exact Or.inr (List.mem_cons_of_mem _ h)

/-- C9: both target-stage filters return entries that alias the caller's
metrics dictionaries: every returned entry is one of the input's (same
keyword, same shared dictionary address), and after the call that shared
dictionary carries the `'stage'` key with the classified stage — so the
caller's input mapping now also exposes the `'stage'` field on those
entries. -/
theorem filter_mutates_shared_metrics (stages : List (Nat × StageRule))
    (targetStages : List Nat) (input : List (String × Nat))
    (store : Nat → MetricsDict) :
    (∀ p ∈ (filter_keywords_by_target_stages (some stages) targetStages input store).1,
        p ∈ input
        ∧ ((filter_keywords_by_target_stages (some stages) targetStages input store).2 p.2).stage
            = some (get_keyword_stage (some stages) (store p.2).blog_count
                (store p.2).total_search_volume))
    ∧ (∀ p ∈ (filter_keywords_auto_mode (some stages) targetStages input store).1,
        p ∈ input
        ∧ ((filter_keywords_auto_mode (some stages) targetStages input store).2 p.2).stage
            = some (get_keyword_stage (some stages) (store p.2).blog_count
                (store p.2).total_search_volume)) := by
  obtain ⟨g1, g2, g3⟩ := filterFold_spec stages targetStages store input ([], store)
    (fun a => ⟨rfl, rfl⟩) (fun p hp => absurd hp (List.not_mem_nil p))
  constructor
  · intro p hp
    refine ⟨?_, g2 p hp⟩
    rcases g3 p hp with h | h
    · exact absurd h (List.not_mem_nil p)
    · exact h
  · intro p hp
    refine ⟨?_, g2 p hp⟩
    rcases g3 p hp with h | h
    · exact absurd h (List.not_mem_nil p)
    · exact h

/-- Witness for C9: one entry passes the filter and its shared dictionary
afterwards carries the computed stage. -/
theorem filter_mutates_shared_metrics_witness :
    ("kw", 0) ∈ (filter_keywords_by_target_stages
        (some [(1, ⟨none, none, none⟩)]) [1] [("kw", 0)] (fun _ => default)).1
    ∧ ((filter_keywords_by_target_stages
        (some [(1, ⟨none, none, none⟩)]) [1] [("kw", 0)] (fun _ => default)).2 0).stage
      = some (get_keyword_stage (some [(1, ⟨none, none, none⟩)])
          ((fun _ => (default : MetricsDict)) 0).blog_count
          ((fun _ => (default : MetricsDict)) 0).total_search_volume) :=
  ⟨by decide,
   ((filter_mutates_shared_metrics [(1, ⟨none, none, none⟩)] [1] [("kw", 0)]
      (fun _ => default)).1 ("kw", 0) (by decide)).2⟩
